import Mathlib

/-!
Shallow embedding of the dynamic hash-table engine of the `mit_006`
repository: the chaining table of
`09_table_doubling_karp_rabin/m6006_09_01_table_doubling.cpp` and the
open-addressing table with its hash/probe strategy families.

Machine integers (`uint32_t`) are modelled as `ℕ` with explicit
`% 2 ^ 32` wherever the C++ arithmetic can wrap (multiplication and
addition inside the hash functions, and the `--num_entries` decrement).
Unbounded C++ loops (`rehash` re-insertion recursion, the prime search,
the probe loop of `insert`) are modelled with explicit fuel returning
`Option`/a `fuelOut` marker, so that divergence of the source loop is
visible as fuel exhaustion at every fuel value.
-/

/-- `2 ^ 32`, the modulus of `uint32_t` arithmetic. -/
def U32 : ℕ := 2 ^ 32

/-- `FREE_MARKER = UINT32_MAX`: slot state "empty" of the open-addressing table. -/
def FREE_MARKER : ℕ := U32 - 1

/-- `DEL_MARKER = UINT32_MAX - 1`: slot state "tombstone" of the open-addressing table. -/
def DEL_MARKER : ℕ := U32 - 2

/-- `INVALID_KEY = 0xFFFFFFFF`, the "not found" sentinel of both tables. -/
def INVALID_KEY : ℕ := FREE_MARKER

/-- `MIN_LENGTH = 8`, the floor of the table length in both tables. -/
def MIN_LENGTH : ℕ := 8

/-- `DivisionHashFunction::operator()`: `key % M`. -/
def DivisionHashFunction (M key : ℕ) : ℕ := key % M

/-- The loop of `MultiplicationHashFunction::OnHashSizeChange`,
structurally fueled: the halving loop runs `⌊log2 m⌋ ≤ m` times, so any
fuel of at least `m` reproduces it exactly. -/
def computeRAux : ℕ → ℕ → ℕ
  | 0, _ => 0
  | fuel + 1, m => if m >>> 1 = 0 then 0 else computeRAux fuel (m >>> 1) + 1

/-- The loop of `MultiplicationHashFunction::OnHashSizeChange`:
`for (R = 0; (m = (m >> 1)); ++R);` — counts how often `M` can be
halved before reaching zero. -/
def computeR (m : ℕ) : ℕ := computeRAux m m

/-- The Fibonacci multiplier `A = (uint64_t(1) << 32) / 1.6180339` of
`MultiplicationHashFunction`, truncated to `uint32_t`. -/
def fibMultiplier : ℕ := 2654435915

/-- `MultiplicationHashFunction::operator()`: `(A * key) >> (W - R)` in
`uint32_t` arithmetic, with `W = 32` and `R` recomputed from `M`. -/
def MultiplicationHashFunction (M key : ℕ) : ℕ :=
  ((fibMultiplier * key) % U32) >>> (32 - computeR M)

/-- `UniversalHashFunction::operator()`: `((A * key + B) % P) % M` in
`uint32_t` arithmetic — `A * key` and the subsequent `+ B` wrap at `2 ^ 32`. -/
def UniversalHashFunction (A B P M key : ℕ) : ℕ :=
  ((((A * key) % U32 + B) % U32) % P) % M

/-- The 6k±1 wheel loop of `UniversalHashFunction::is_prime`, with the
source's incrementally maintained `i`, `i_sq`, `i_sq_step` counters.
Fuel bounds the iteration count; the loop body runs at most `n / 6 + 1`
times, so any fuel above that reproduces the C++ loop exactly. -/
def isPrimeWheel (n : ℕ) : ℕ → ℕ → ℕ → ℕ → Bool
  | _, _, _, 0 => true
  | i, i_sq, i_sq_step, fuel + 1 =>
    if i_sq ≤ n then
      if n % i = 0 || n % (i + 2) = 0 then false
      else isPrimeWheel n (i + 6) (i_sq + i_sq_step) (i_sq_step + 72) fuel
    else true

/-- `UniversalHashFunction::is_prime`. -/
def is_prime (n : ℕ) : Bool :=
  if n % 2 = 0 || n % 3 = 0 then false
  else isPrimeWheel n 5 25 96 (n + 1)

/-- `UniversalHashFunction::least_prime_larger_than`:
`while (!is_prime(++n));` with fuel for the unbounded search. -/
def least_prime_larger_than : ℕ → ℕ → Option ℕ
  | 0, _ => none
  | fuel + 1, n => if is_prime (n + 1) then some (n + 1) else least_prime_larger_than fuel (n + 1)

/-- `LinearProbingHashFunction::operator()`: `(hFunc(key) + trial_no) % M`
with the `uint32_t` addition wrapping at `2 ^ 32`. -/
def LinearProbingHashFunction (h : ℕ → ℕ) (M key trial : ℕ) : ℕ :=
  ((h key + trial) % U32) % M

/-- `DoubleHashFunction::Oddify`: `val | 1`. -/
def Oddify (val : ℕ) : ℕ := val ||| 1

/-- `DoubleHashFunction::operator()`:
`(hFunc1(key) + trial_no * Oddify(hFunc2(key))) % M` in `uint32_t` arithmetic. -/
def DoubleHashFunction (h1 h2 : ℕ → ℕ) (M key trial : ℕ) : ℕ :=
  ((h1 key + (trial * Oddify (h2 key)) % U32) % U32) % M





/-- The chaining hash table of `m6006_09_01_table_doubling.cpp`:
an array of buckets (each a `std::list<uint32_t>`) plus the entry count.
The C++ `length` field always equals the allocated bucket count, so the
embedding derives it from `hashTable` instead of duplicating it. -/
structure ChainTable where
  hashTable : List (List ℕ)
  num_entries : ℕ
deriving DecidableEq

/-- The table length (the C++ `length` field). -/
def ChainTable.length (s : ChainTable) : ℕ := s.hashTable.length

/-- The chaining `HashTable()` constructor: `MIN_LENGTH` empty buckets. -/
def chainNew : ChainTable := ⟨List.replicate MIN_LENGTH [], 0⟩

mutual

/-- Chaining `HashTable::insert`: grow-rehash at `2 * length` when
`length == num_entries`, then `push_back` into bucket `hash(key)` and
increment `num_entries` (a `uint32_t` increment). The hash strategy is a
function of the current length, mirroring `UpdateHashSize`. Fuel bounds
the rehash recursion depth; `none` means fuel ran out. -/
def ChainTable.insertF (hashF : ℕ → ℕ → ℕ) : ℕ → ChainTable → ℕ → Option ChainTable
  | 0, _, _ => none
  | fuel + 1, s, key =>
    (if s.length = s.num_entries then ChainTable.rehashF hashF fuel s (2 * s.length)
     else some s).bind fun s1 =>
      let idx := hashF s1.length key
      some ⟨s1.hashTable.set idx (s1.hashTable.getD idx [] ++ [key]),
            (s1.num_entries + 1) % U32⟩

/-- Chaining `HashTable::rehash`: fresh empty buckets of the new length,
entry count reset, then every key of the old table re-inserted in bucket
order via `insert` (which re-hashes with the new length). -/
def ChainTable.rehashF (hashF : ℕ → ℕ → ℕ) : ℕ → ChainTable → ℕ → Option ChainTable
  | 0, _, _ => none
  | fuel + 1, s, newLen =>
    s.hashTable.flatten.foldlM (fun st k => ChainTable.insertF hashF fuel st k)
      ⟨List.replicate newLen [], 0⟩

end

/-- Chaining `HashTable::find`: scan bucket `hash(key)` for an equal key;
return it, else `INVALID_KEY`. -/
def ChainTable.find (hashF : ℕ → ℕ → ℕ) (s : ChainTable) (key : ℕ) : ℕ :=
  let chain := s.hashTable.getD (hashF s.length key) []
  match chain.find? (· == key) with
  | some k => k
  | none => INVALID_KEY

/-- Chaining `HashTable::remove`: erase the first occurrence of `key` from
bucket `hash(key)` if present, then decrement `num_entries`
*unconditionally* (the C++ `--num_entries` sits outside the found-check;
on `uint32_t` it wraps at zero), then shrink-rehash at `length / 2` when
`length > MIN_LENGTH` and `num_entries <= length / 4`. -/
def ChainTable.removeF (hashF : ℕ → ℕ → ℕ) (fuel : ℕ) (s : ChainTable) (key : ℕ) :
    Option ChainTable :=
  let idx := hashF s.length key
  let chain := s.hashTable.getD idx []
  let s1 : ChainTable :=
    ⟨s.hashTable.set idx (chain.erase key), (s.num_entries + (U32 - 1)) % U32⟩
  if MIN_LENGTH < s1.length ∧ s1.num_entries ≤ s1.length / 4 then
    ChainTable.rehashF hashF fuel s1 (s1.length / 2)
  else some s1

/-- The open-addressing hash table of the companion source file: a flat
slot array (`FREE_MARKER` = empty, `DEL_MARKER` = tombstone, anything
else = a stored key) plus the occupied count. As for `ChainTable`, the
C++ `length` field always equals the array size and is derived. -/
structure OpenTable where
  hashTable : List ℕ
  num_entries : ℕ
deriving DecidableEq

/-- The table length (the C++ `length` field). -/
def OpenTable.length (s : OpenTable) : ℕ := s.hashTable.length

/-- The open-addressing constructor: `MIN_LENGTH` slots, all `FREE_MARKER`. -/
def openNew : OpenTable := ⟨List.replicate MIN_LENGTH FREE_MARKER, 0⟩

/-- Outcome of the probe loop inside the open-addressing `insert`. -/
inductive ProbeResult where
  | found (index : ℕ)
  | freeSlot (index : ℕ)
  | fuelOut
deriving DecidableEq

/-- The probe loop of the open-addressing `insert`:
`do { index = prHashFunc(key, probe++); if (tbl[index] == key) return; }
while (tbl[index] != FREE_MARKER);` — note it continues past
`DEL_MARKER` slots and has no trial bound in the source; fuel makes the
possible divergence explicit. `ph` is the probe strategy already
specialised to the current length. -/
def probeLoop (tbl : List ℕ) (ph : ℕ → ℕ → ℕ) (key : ℕ) : ℕ → ℕ → ProbeResult
  | _, 0 => .fuelOut
  | t, fuel + 1 =>
    let idx := ph key t
    let slot := tbl.getD idx FREE_MARKER
    if slot = key then .found idx
    else if slot = FREE_MARKER then .freeSlot idx
    else probeLoop tbl ph key (t + 1) fuel

mutual

/-- Open-addressing `HashTable::insert`: grow-rehash at `2 * length` when
`load_factor() >= 0.5` (exactly `length <= 2 * num_entries` for the
power-of-two lengths the table maintains), then run the probe loop: a
slot already holding `key` returns without modification, otherwise the
key is placed in the probed `FREE_MARKER` slot and `num_entries` is
incremented. The probe loop receives `length` fuel: the concrete probe
strategies have period `length`, so a loop that makes no exit within
`length` trials never exits, and `none` models that divergence (or
rehash-fuel exhaustion). -/
def OpenTable.insertF (ph : ℕ → ℕ → ℕ → ℕ) : ℕ → OpenTable → ℕ → Option OpenTable
  | 0, _, _ => none
  | fuel + 1, s, key =>
    (if s.length ≤ 2 * s.num_entries then OpenTable.rehashF ph fuel s (2 * s.length)
     else some s).bind fun s1 =>
      match probeLoop s1.hashTable (ph s1.length) key 0 s1.length with
      | .found _ => some s1
      | .freeSlot idx =>
        some ⟨s1.hashTable.set idx key, (s1.num_entries + 1) % U32⟩
      | .fuelOut => none

/-- Open-addressing `HashTable::rehash`: fresh all-`FREE_MARKER` array of
the new length, entry count reset, then every stored key (tombstones and
free slots dropped) re-inserted via `insert`. -/
def OpenTable.rehashF (ph : ℕ → ℕ → ℕ → ℕ) : ℕ → OpenTable → ℕ → Option OpenTable
  | 0, _, _ => none
  | fuel + 1, s, newLen =>
    (s.hashTable.filter fun k => k != FREE_MARKER && k != DEL_MARKER).foldlM
      (fun st k => OpenTable.insertF ph fuel st k)
      ⟨List.replicate newLen FREE_MARKER, 0⟩

end

/-- The loop of `HashTable::find_index`, which *is* trial-bounded in the
source: `do { ... } while (tbl[index] != FREE_MARKER && probe < length)`.
`L` is the table length (the not-found return value); the fuel argument
`L - t` counts the remaining permitted trials. -/
def find_indexAux (tbl : List ℕ) (ph : ℕ → ℕ → ℕ) (key L : ℕ) : ℕ → ℕ → ℕ
  | _, 0 => L
  | t, fuel + 1 =>
    let idx := ph key t
    let slot := tbl.getD idx FREE_MARKER
    if slot = key then idx
    else if slot ≠ FREE_MARKER ∧ 0 < fuel then find_indexAux tbl ph key L (t + 1) fuel
    else L

/-- Open-addressing `HashTable::find_index`: probe until the key is found
(return its index), an empty slot is reached, or `length` trials are
exhausted (return `length`). -/
def OpenTable.find_index (ph : ℕ → ℕ → ℕ → ℕ) (s : OpenTable) (key : ℕ) : ℕ :=
  find_indexAux s.hashTable (ph s.length) key s.length 0 s.length

/-- Open-addressing `HashTable::find`. -/
def OpenTable.find (ph : ℕ → ℕ → ℕ → ℕ) (s : OpenTable) (key : ℕ) : ℕ :=
  let idx := s.find_index ph key
  if idx < s.length then s.hashTable.getD idx FREE_MARKER else INVALID_KEY

/-- Open-addressing `HashTable::remove`: locate via `find_index`; absent
keys return with no mutation; a found slot is overwritten with
`DEL_MARKER`, `num_entries` is decremented (`uint32_t` wrap), and the
table shrink-rehashes to `length / 4` when `length / 4 >= MIN_LENGTH`
and `load_factor() <= 0.125` (exactly `8 * num_entries <= length`). -/
def OpenTable.remove (ph : ℕ → ℕ → ℕ → ℕ) (fuel : ℕ) (s : OpenTable) (key : ℕ) :
    Option OpenTable :=
  let idx := s.find_index ph key
  if s.length ≤ idx then some s
  else
    let s1 : OpenTable :=
      ⟨s.hashTable.set idx DEL_MARKER, (s.num_entries + (U32 - 1)) % U32⟩
    if MIN_LENGTH ≤ s1.length / 4 ∧ 8 * s1.num_entries ≤ s1.length then
      OpenTable.rehashF ph fuel s1 (s1.length / 4)
    else some s1

/-- A table operation of the demo drivers: insert or remove one key. -/
inductive HOp where
  | ins (key : ℕ)
  | rm (key : ℕ)

/-- Run a sequence of operations on an open-addressing table. -/
def OpenTable.run (ph : ℕ → ℕ → ℕ → ℕ) (fuel : ℕ) (s : OpenTable) : List HOp → Option OpenTable
  | [] => some s
  | op :: rest =>
    (match op with
     | .ins k => OpenTable.insertF ph fuel s k
     | .rm k => OpenTable.remove ph fuel s k).bind
      fun s1 => OpenTable.run ph fuel s1 rest

/-- Linear probing over division hashing, as instantiated by the demo
driver (`LinearProbingHashFunction` holding a `DivisionHashFunction`
kept at the table's current length). -/
def divLinear (M : ℕ) : ℕ → ℕ → ℕ := LinearProbingHashFunction (DivisionHashFunction M) M

/-- `x | 1` is odd. -/
lemma Oddify_mod_two (x : ℕ) : Oddify x % 2 = 1 := by
  have h : (x ||| 1).testBit 0 = true := by
    rw [Nat.testBit_lor]; simp
  rw [Nat.testBit_zero] at h
  exact of_decide_eq_true h

/-- Core permutation fact: for `s` coprime to `M`, the map
`t ↦ (a + t * s) % M` sends `[0, M)` to a permutation of `[0, M)`. -/
lemma affine_probe_perm (M a s : ℕ) (hc : Nat.Coprime s M) :
    ((List.range M).map fun t => (a + t * s) % M).Perm (List.range M) := by
  rcases Nat.eq_zero_or_pos M with hM | hM
  · simp [hM]
  · apply List.Subperm.perm_of_length_le
    · apply List.Nodup.subperm
      · refine (List.nodup_range M).map_on ?_
        intro t1 h1 t2 h2 heq
        rw [List.mem_range] at h1 h2
        have h3 : Nat.ModEq M (a + t1 * s) (a + t2 * s) := heq
        have h4 : Nat.ModEq M (t1 * s) (t2 * s) := Nat.ModEq.add_left_cancel' a h3
        have h5 : Nat.ModEq M t1 t2 := Nat.ModEq.cancel_right_of_coprime hc.symm h4
        have h6 : t1 % M = t2 % M := h5
        rwa [Nat.mod_eq_of_lt h1, Nat.mod_eq_of_lt h2] at h6
      · intro x hx
        rw [List.mem_map] at hx
        obtain ⟨t, _, rfl⟩ := hx
        exact List.mem_range.2 (Nat.mod_lt _ hM)
    · simp

/-- Reduction of the `uint32_t` wraparound: when `M` divides `2 ^ 32`,
the intermediate `% 2 ^ 32` does not change the final `% M`. -/
lemma mod_u32_mod (M : ℕ) (hdvd : M ∣ U32) (a : ℕ) : a % U32 % M = a % M :=
  Nat.mod_mod_of_dvd a hdvd

/-- Slots of an all-`DEL_MARKER` length-8 table, as probed by linear
probing over division hashing, are always tombstones. -/
lemma replicate_del_getD (t : ℕ) :
    (List.replicate 8 DEL_MARKER).getD (divLinear 8 8 t) FREE_MARKER = DEL_MARKER := by
  have hidx : divLinear 8 8 t < 8 := by
    simp only [divLinear, LinearProbingHashFunction]
    exact Nat.mod_lt _ (by norm_num)
  rw [List.getD_eq_getElem?_getD, List.getElem?_replicate]
  simp [hidx]

/-- On the all-tombstone length-8 table, the probe loop of the
open-addressing `insert` for key `8` makes no exit at any fuel: every
probed slot is `DEL_MARKER`, which is neither the key nor `FREE_MARKER`. -/
lemma probeLoop_all_tombstones (t fuel : ℕ) :
    probeLoop (List.replicate 8 DEL_MARKER) (divLinear 8) 8 t fuel = .fuelOut := by
  induction fuel generalizing t with
  | zero => rfl
  | succ f ih =>
    simp only [probeLoop, replicate_del_getD]
    rw [if_neg (by decide), if_neg (by decide)]
    exact ih (t + 1)

/-- C1: `ChainTable.remove` of an absent key still decrements
`num_entries`. From the fresh table (no keys stored, `num_entries = 0`),
`remove(1)` leaves every bucket unchanged but wraps `num_entries` to
`2 ^ 32 - 1`, contradicting the claim that the count is decremented
exactly when an occurrence was found. -/
theorem chain_remove_absent_key_decrements :
    ChainTable.find DivisionHashFunction chainNew 1 = INVALID_KEY ∧
    ChainTable.removeF DivisionHashFunction 5 chainNew 1 =
      some ⟨List.replicate 8 [], 4294967295⟩ := by decide

/-- C3: a reachable open-addressing state on which the probe loop of
`insert` never terminates. Starting from the fresh table (division
hashing, linear probing), inserting and removing keys `0..7` yields the
all-tombstone table of length 8 (shrink cannot fire because
`length / 4 = 2 < MIN_LENGTH`); inserting key `8` there probes forever —
for every fuel the loop makes no exit, and `insert` diverges — refuting
the claim that probing is bounded by `M` trials. -/
theorem open_insert_probe_unbounded :
    OpenTable.run divLinear 100 openNew
      [.ins 0, .ins 1, .ins 2, .ins 3, .rm 0, .rm 1, .rm 2, .rm 3,
       .ins 4, .ins 5, .ins 6, .ins 7, .rm 4, .rm 5, .rm 6, .rm 7] =
      some ⟨List.replicate 8 DEL_MARKER, 0⟩ ∧
    (∀ fuel t, probeLoop (List.replicate 8 DEL_MARKER) (divLinear 8) 8 t fuel = .fuelOut) ∧
    ∀ fuel, OpenTable.insertF divLinear fuel ⟨List.replicate 8 DEL_MARKER, 0⟩ 8 = none := by
  refine ⟨by decide, fun fuel t => probeLoop_all_tombstones t fuel, fun fuel => ?_⟩
  cases fuel with
  | zero => rfl
  | succ f => rfl

/-- C5: after inserting keys `{5, 13, 21, 29}` into the fresh
open-addressing table (division hashing, linear probing, `M = 8`) and
removing all four, the table length is still 8, not the 4 the claim
promises: the shrink guard `length / 4 >= MIN_LENGTH` can never hold at
`M = 8`. -/
theorem open_m8_scenario_not_length_4 :
    (OpenTable.run divLinear 100 openNew
        [.ins 5, .ins 13, .ins 21, .ins 29, .rm 5, .rm 13, .rm 21, .rm 29]).map
      OpenTable.length = some 8 ∧
    (OpenTable.run divLinear 100 openNew
        [.ins 5, .ins 13, .ins 21, .ins 29, .rm 5, .rm 13, .rm 21, .rm 29]).map
      OpenTable.length ≠ some 4 := by decide

/-- C5 (amended): the scenario ends with no rebuild at all — the table
keeps length 8, `num_entries = 0`, the four probed slots (5, 6, 7 and
the wrapped 0) tombstoned and the rest empty. -/
theorem open_m8_scenario_final_state :
    OpenTable.run divLinear 100 openNew
      [.ins 5, .ins 13, .ins 21, .ins 29, .rm 5, .rm 13, .rm 21, .rm 29] =
      some ⟨[DEL_MARKER, FREE_MARKER, FREE_MARKER, FREE_MARKER, FREE_MARKER,
             DEL_MARKER, DEL_MARKER, DEL_MARKER], 0⟩ := by decide

/-- C6: the 8th insert into a fresh chaining table does not rebuild:
after inserting keys `0..7` the table still has length 8 (the grow test
`length == num_entries` first holds when the next, 9th, insert arrives). -/
theorem chain_eighth_insert_no_rebuild :
    ((List.range 8).foldlM (fun s k => ChainTable.insertF DivisionHashFunction 10 s k)
        chainNew).map ChainTable.length = some 8 ∧
    ((List.range 8).foldlM (fun s k => ChainTable.insertF DivisionHashFunction 10 s k)
        chainNew).map ChainTable.length ≠ some 16 := by decide

/-- C6 (amended): the 9th insert (arriving when `num_entries = 8 =
length`) rebuilds to length 16 before placing its key, and afterwards
all nine keys `0..8` are findable (`find` returns each key itself). -/
theorem chain_ninth_insert_rebuilds :
    (List.range 9).foldlM (fun s k => ChainTable.insertF DivisionHashFunction 10 s k)
        chainNew =
      some ⟨[[0], [1], [2], [3], [4], [5], [6], [7], [8], [], [], [], [], [], [], []], 9⟩ ∧
    (List.range 9).map
        (ChainTable.find DivisionHashFunction
          ⟨[[0], [1], [2], [3], [4], [5], [6], [7], [8], [], [], [], [], [], [], []], 9⟩) =
      List.range 9 := by
  constructor
  · have hsplit : List.range 9 = List.range 8 ++ [8] := by decide
    rw [hsplit, List.foldlM_append]
    have h8 : (List.range 8).foldlM (fun s k => ChainTable.insertF DivisionHashFunction 10 s k)
        chainNew = some ⟨[[0], [1], [2], [3], [4], [5], [6], [7]], 8⟩ := by decide
    rw [h8]
    decide
  · decide

/-- C7: the chaining table has no guard on the sentinel —
`insert(0xFFFFFFFF)` stores `INVALID_KEY` itself in bucket 7
(`0xFFFFFFFF % 8 = 7`), refuting the claim that the sentinel can never
end up stored as a key. -/
theorem chain_insert_stores_sentinel :
    ChainTable.insertF DivisionHashFunction 5 chainNew INVALID_KEY =
      some ⟨[[], [], [], [], [], [], [], [INVALID_KEY]], 1⟩ ∧
    INVALID_KEY ∈ ([[], [], [], [], [], [], [], [INVALID_KEY]] : List (List ℕ)).getD 7 [] := by
  decide

/-- C8: the universal hash is computed in `uint32_t`, not exact
arithmetic. With `M = 8` (so `P = least_prime_larger_than 8 = 11`) and
drawn values `A = 2, B = 0` in `[0, 11)`, key `2 ^ 31` hashes to 0,
while the exact formula `((A * key + B) % P) % M` gives 4. -/
theorem universal_hash_wraps :
    least_prime_larger_than 100 8 = some 11 ∧ 2 < 11 ∧ 0 < 11 ∧
    UniversalHashFunction 2 0 11 8 (2 ^ 31) = 0 ∧
    ((2 * 2 ^ 31 + 0) % 11) % 8 = 4 := by decide

/-- C4: for every power-of-two table size `M = 2 ^ k` (with `k ≤ 32`, as
`uint32_t` sizes are) and every key — over arbitrary underlying hash
functions — both probe strategies enumerate each index of `[0, M)`
exactly once as the trial number ranges over `[0, M)`: the probed index
lists are permutations of `List.range M`. -/
theorem probe_sequences_are_permutations (k : ℕ) (hk : k ≤ 32) (h h1 h2 : ℕ → ℕ)
    (key : ℕ) :
    ((List.range (2 ^ k)).map (LinearProbingHashFunction h (2 ^ k) key)).Perm
      (List.range (2 ^ k)) ∧
    ((List.range (2 ^ k)).map (DoubleHashFunction h1 h2 (2 ^ k) key)).Perm
      (List.range (2 ^ k)) := by
  have hdvd : (2 ^ k : ℕ) ∣ U32 := pow_dvd_pow 2 hk
  constructor
  · have heq : ∀ t ∈ List.range (2 ^ k),
        LinearProbingHashFunction h (2 ^ k) key t = (h key + t * 1) % 2 ^ k := by
      intro t _
      simp only [LinearProbingHashFunction, mul_one]
      exact mod_u32_mod _ hdvd _
    rw [List.map_congr_left heq]
    exact affine_probe_perm _ _ _ (Nat.coprime_one_left _)
  · have heq : ∀ t ∈ List.range (2 ^ k),
        DoubleHashFunction h1 h2 (2 ^ k) key t =
          (h1 key + t * Oddify (h2 key)) % 2 ^ k := by
      intro t _
      simp only [DoubleHashFunction]
      rw [mod_u32_mod _ hdvd, Nat.add_mod, mod_u32_mod _ hdvd, ← Nat.add_mod]
    rw [List.map_congr_left heq]
    have hodd : Odd (Oddify (h2 key)) := Nat.odd_iff.mpr (Oddify_mod_two _)
    exact affine_probe_perm _ _ _ (hodd.coprime_two_right.pow_right k)

/-- Witness for C4 at `M = 8`, key 5, with the driver's concrete hash
functions backing the probes. -/
theorem probe_sequences_are_permutations_witness :
    ((List.range 8).map (LinearProbingHashFunction (DivisionHashFunction 8) 8 5)).Perm
      (List.range 8) ∧
    ((List.range 8).map
        (DoubleHashFunction (DivisionHashFunction 8) (MultiplicationHashFunction 8) 8 5)).Perm
      (List.range 8) :=
  probe_sequences_are_permutations 3 (by norm_num)
    (DivisionHashFunction 8) (DivisionHashFunction 8) (MultiplicationHashFunction 8) 5

/-- The `OnHashSizeChange` halving loop computes `R = k` on `M = 2 ^ k`. -/
lemma computeRAux_pow (k : ℕ) : ∀ fuel, k ≤ fuel → computeRAux fuel (2 ^ k) = k := by
  induction k with
  | zero =>
    intro fuel _
    cases fuel with
    | zero => rfl
    | succ f => simp [computeRAux]
  | succ n ih =>
    intro fuel hf
    obtain ⟨f, rfl⟩ : ∃ f, fuel = f + 1 := ⟨fuel - 1, by omega⟩
    have h1 : (2 ^ (n + 1)) >>> 1 = 2 ^ n := by
      rw [Nat.shiftRight_eq_div_pow, pow_one, pow_succ, Nat.mul_div_cancel _ (by norm_num)]
    simp only [computeRAux, h1]
    rw [if_neg (by positivity)]
    rw [ih f (by omega)]

/-- `computeR (2 ^ k) = k`. -/
lemma computeR_pow (k : ℕ) : computeR (2 ^ k) = k :=
  computeRAux_pow k (2 ^ k) (Nat.le_of_lt (Nat.lt_two_pow k))

/-- C9: on the power-of-two table sizes `M = 2 ^ k` the tables maintain
(`8 ≤ M`, `uint32_t`-sized), all three hash strategies return an index
below `M`, for every key and all strategy parameters `A, B, P`. -/
theorem hash_outputs_in_range (k A B P key : ℕ) (h3 : 3 ≤ k) (h31 : k ≤ 31) :
    DivisionHashFunction (2 ^ k) key < 2 ^ k ∧
    MultiplicationHashFunction (2 ^ k) key < 2 ^ k ∧
    UniversalHashFunction A B P (2 ^ k) key < 2 ^ k := by
  have hpos : 0 < (2 : ℕ) ^ k := by positivity
  refine ⟨Nat.mod_lt _ hpos, ?_, Nat.mod_lt _ hpos⟩
  simp only [MultiplicationHashFunction, computeR_pow, Nat.shiftRight_eq_div_pow]
  rw [Nat.div_lt_iff_lt_mul (by positivity)]
  have hx : (fibMultiplier * key) % U32 < U32 := Nat.mod_lt _ (by norm_num [U32])
  calc (fibMultiplier * key) % U32 < U32 := hx
    _ = 2 ^ k * 2 ^ (32 - k) := by
        rw [← pow_add, U32]
        congr 1
        omega

/-- Witness for C9 at `M = 8` with `P = 11`, `A = 7`, `B = 5`, key 12345. -/
theorem hash_outputs_in_range_witness :
    DivisionHashFunction 8 12345 < 8 ∧
    MultiplicationHashFunction 8 12345 < 8 ∧
    UniversalHashFunction 7 5 11 8 12345 < 8 :=
  hash_outputs_in_range 3 7 5 11 12345 (by norm_num) (by norm_num)

/-- C8 (amended): the universal hash equals
`(((A * key + B) mod 2 ^ 32) mod P) mod M` — the exact formula with a
single `uint32_t` wraparound of `A * key + B`; whenever that product
does not overflow, it coincides with the spec's exact formula. -/
theorem universal_hash_uint32_formula (A B P M key : ℕ) :
    UniversalHashFunction A B P M key = (((A * key + B) % U32) % P) % M ∧
    (A * key + B < U32 → UniversalHashFunction A B P M key = ((A * key + B) % P) % M) := by
  have h1 : UniversalHashFunction A B P M key = (((A * key + B) % U32) % P) % M := by
    simp only [UniversalHashFunction, Nat.mod_add_mod]
  exact ⟨h1, fun h => by rw [h1, Nat.mod_eq_of_lt h]⟩

/-- Witness for the amended C8 at non-overflowing inputs. -/
theorem universal_hash_uint32_formula_witness :
    UniversalHashFunction 2 3 11 8 7 = ((2 * 7 + 3) % 11) % 8 :=
  (universal_hash_uint32_formula 2 3 11 8 7).2 (by norm_num [U32])

/-- When `key` is stored nowhere in the table and every probe stays in
range, the bounded loop of `find_index` never exits early: it returns
the not-found value `L`. -/
lemma find_indexAux_absent (tbl : List ℕ) (ph : ℕ → ℕ → ℕ) (key L : ℕ)
    (hrange : ∀ t, ph key t < tbl.length) (habs : key ∉ tbl) :
    ∀ fuel t, find_indexAux tbl ph key L t fuel = L := by
  intro fuel
  induction fuel with
  | zero => intro t; rfl
  | succ f ih =>
    intro t
    have hs : tbl.getD (ph key t) FREE_MARKER ≠ key := by
      rw [List.getD_eq_getElem tbl FREE_MARKER (hrange t)]
      intro hcontr
      exact habs (hcontr ▸ List.getElem_mem (hrange t))
    simp only [find_indexAux]
    rw [if_neg hs]
    by_cases hc : tbl.getD (ph key t) FREE_MARKER ≠ FREE_MARKER ∧ 0 < f
    · rw [if_pos hc]
      exact ih (t + 1)
    · rw [if_neg hc]

/-- C10 (counterexample): a key that is absent as an entry — never
stored, reported absent by `find` — for which `remove` nevertheless
mutates the table. The slot markers collide in-band with key values: on
the fresh table, `find_index(0xFFFFFFFF)` fires its `hashTable[index] ==
key` test at the first free slot of the key's probe sequence (slot 7),
so `remove(0xFFFFFFFF)` tombstones that free slot and wraps
`num_entries` from 0 to `0xFFFFFFFF`. -/
theorem open_remove_sentinel_mutates :
    OpenTable.find divLinear openNew INVALID_KEY = INVALID_KEY ∧
    OpenTable.remove divLinear 4 openNew INVALID_KEY =
      some ⟨[FREE_MARKER, FREE_MARKER, FREE_MARKER, FREE_MARKER, FREE_MARKER,
             FREE_MARKER, FREE_MARKER, DEL_MARKER], 4294967295⟩ ∧
    OpenTable.remove divLinear 4 openNew INVALID_KEY ≠ some openNew := by decide

/-- C10 (amended): removing a key that occurs in no slot of the backing
array leaves the open-addressing table completely unchanged —
`find_index` returns `length`, `remove` takes its early return, and no
slot, count or shrink rebuild happens. Raw-array absence is the exact
boundary of the no-op guarantee: it excludes the reserved markers
`0xFFFFFFFF`/`0xFFFFFFFE` whenever a free or tombstoned slot is in the
table, and those keys do mutate it (see the counterexample above).
(`hrange` says the probe strategy stays in range, as the concrete
strategies do.) -/
theorem open_remove_absent_noop (ph : ℕ → ℕ → ℕ → ℕ) (fuel : ℕ) (s : OpenTable) (key : ℕ)
    (hrange : ∀ t, ph s.length key t < s.length) (habs : key ∉ s.hashTable) :
    OpenTable.remove ph fuel s key = some s := by
  have hfi : s.find_index ph key = s.length :=
    find_indexAux_absent s.hashTable (ph s.length) key s.length hrange habs s.length 0
  simp only [OpenTable.remove, hfi]
  rw [if_pos (le_refl _)]

/-- Witness for C10: removing the absent key 3 from the fresh table. -/
theorem open_remove_absent_noop_witness :
    OpenTable.remove divLinear 4 openNew 3 = some openNew :=
  open_remove_absent_noop divLinear 4 openNew 3
    (fun t => Nat.mod_lt _ (by decide)) (by decide)

/-- If the insert probe loop reports a free slot, that slot is
`FREE_MARKER`, it lies on the key's probe sequence, and every strictly
earlier trial hit a slot that is not `FREE_MARKER` (tombstones and other
keys alike are skipped, not reused). -/
lemma probeLoop_finds_first_free (tbl : List ℕ) (ph : ℕ → ℕ → ℕ) (key : ℕ) :
    ∀ fuel t idx, probeLoop tbl ph key t fuel = .freeSlot idx →
      ∃ d, idx = ph key (t + d) ∧ tbl.getD idx FREE_MARKER = FREE_MARKER ∧
        ∀ e < d, tbl.getD (ph key (t + e)) FREE_MARKER ≠ FREE_MARKER := by
  intro fuel
  induction fuel with
  | zero =>
    intro t idx h
    exact ProbeResult.noConfusion h
  | succ f ih =>
    intro t idx h
    simp only [probeLoop] at h
    by_cases h1 : tbl.getD (ph key t) FREE_MARKER = key
    · rw [if_pos h1] at h
      exact ProbeResult.noConfusion h
    · rw [if_neg h1] at h
      by_cases h2 : tbl.getD (ph key t) FREE_MARKER = FREE_MARKER
      · rw [if_pos h2] at h
        obtain rfl : ph key t = idx := ProbeResult.freeSlot.inj h
        exact ⟨0, by rw [Nat.add_zero], h2, fun e he => absurd he (Nat.not_lt_zero e)⟩
      · rw [if_neg h2] at h
        obtain ⟨d, hd1, hd2, hd3⟩ := ih (t + 1) idx h
        refine ⟨d + 1, by rw [hd1]; congr 1; omega, hd2, ?_⟩
        intro e he
        cases e with
        | zero => rw [Nat.add_zero]; exact h2
        | succ e2 =>
          have h3 := hd3 e2 (by omega)
          have h4 : t + (e2 + 1) = t + 1 + e2 := by omega
          rw [h4]
          exact h3

/-- If the insert probe loop reports a hit, the hit slot holds the key
and lies on the key's probe sequence. -/
lemma probeLoop_found_slot (tbl : List ℕ) (ph : ℕ → ℕ → ℕ) (key : ℕ) :
    ∀ fuel t idx, probeLoop tbl ph key t fuel = .found idx →
      tbl.getD idx FREE_MARKER = key ∧ ∃ d, idx = ph key (t + d) := by
  intro fuel
  induction fuel with
  | zero =>
    intro t idx h
    exact ProbeResult.noConfusion h
  | succ f ih =>
    intro t idx h
    simp only [probeLoop] at h
    by_cases h1 : tbl.getD (ph key t) FREE_MARKER = key
    · rw [if_pos h1] at h
      obtain rfl : ph key t = idx := ProbeResult.found.inj h
      exact ⟨h1, 0, by rw [Nat.add_zero]⟩
    · rw [if_neg h1] at h
      by_cases h2 : tbl.getD (ph key t) FREE_MARKER = FREE_MARKER
      · rw [if_pos h2] at h
        exact ProbeResult.noConfusion h
      · rw [if_neg h2] at h
        obtain ⟨hd1, d, hd2⟩ := ih (t + 1) idx h
        exact ⟨hd1, d + 1, by rw [hd2]; congr 1; omega⟩

/-- C2 (counterexample part): in the state reached by
`insert 5; remove 5; insert 13` (division hashing, linear probing,
`M = 8`), key 13's probe sequence starts at slot 5, which is a tombstone
— the first `EMPTY`-or-`TOMBSTONE` slot — yet 13 was placed in slot 6,
the first `EMPTY` slot. -/
theorem open_insert_skips_tombstone :
    OpenTable.run divLinear 100 openNew [.ins 5, .rm 5, .ins 13] =
      some ⟨[FREE_MARKER, FREE_MARKER, FREE_MARKER, FREE_MARKER, FREE_MARKER,
             DEL_MARKER, 13, FREE_MARKER], 1⟩ ∧
    divLinear 8 13 0 = 5 ∧
    ([FREE_MARKER, FREE_MARKER, FREE_MARKER, FREE_MARKER, FREE_MARKER,
      DEL_MARKER, 13, FREE_MARKER] : List ℕ).getD 5 FREE_MARKER = DEL_MARKER ∧
    ([FREE_MARKER, FREE_MARKER, FREE_MARKER, FREE_MARKER, FREE_MARKER,
      DEL_MARKER, 13, FREE_MARKER] : List ℕ).getD 5 FREE_MARKER ≠ 13 := by decide

/-- C2 (amended): when `insert` of a not-stored key succeeds (below the
grow threshold, probes in range), the key goes to the first `FREE`
(empty) slot along its probe sequence — every earlier probed slot is not
empty (occupied or tombstone) — and `num_entries` is incremented. -/
theorem open_insert_places_first_free (ph : ℕ → ℕ → ℕ → ℕ) (fuel : ℕ) (s s2 : OpenTable)
    (key : ℕ) (hng : 2 * s.num_entries < s.length)
    (hrange : ∀ t, ph s.length key t < s.length) (habs : key ∉ s.hashTable)
    (hins : OpenTable.insertF ph (fuel + 1) s key = some s2) :
    ∃ t, s.hashTable.getD (ph s.length key t) FREE_MARKER = FREE_MARKER ∧
      (∀ e < t, s.hashTable.getD (ph s.length key e) FREE_MARKER ≠ FREE_MARKER) ∧
      s2 = ⟨s.hashTable.set (ph s.length key t) key, (s.num_entries + 1) % U32⟩ := by
  simp only [OpenTable.insertF] at hins
  rw [if_neg (by omega), Option.some_bind] at hins
  cases hpl : probeLoop s.hashTable (ph s.length) key 0 s.length with
  | found i =>
    obtain ⟨hslot, d, hd⟩ := probeLoop_found_slot s.hashTable (ph s.length) key s.length 0 i hpl
    rw [List.getD_eq_getElem s.hashTable FREE_MARKER (hd ▸ hrange (0 + d))] at hslot
    exact absurd (hslot ▸ List.getElem_mem (hd ▸ hrange (0 + d))) habs
  | freeSlot i =>
    rw [hpl] at hins
    obtain ⟨d, hd1, hd2, hd3⟩ :=
      probeLoop_finds_first_free s.hashTable (ph s.length) key s.length 0 i hpl
    refine ⟨d, ?_, ?_, ?_⟩
    · rw [← Nat.zero_add d, ← hd1]
      exact hd2
    · intro e he
      have h3 := hd3 e he
      rw [Nat.zero_add] at h3
      exact h3
    · rw [← Option.some_inj, ← hins]
      rw [hd1, Nat.zero_add]
  | fuelOut =>
    rw [hpl] at hins
    exact Option.noConfusion hins

/-- Witness for the amended C2: inserting 13 into the fresh table. -/
theorem open_insert_places_first_free_witness :
    ∃ t, openNew.hashTable.getD (divLinear openNew.length 13 t) FREE_MARKER = FREE_MARKER ∧
      (∀ e < t, openNew.hashTable.getD (divLinear openNew.length 13 e) FREE_MARKER ≠
        FREE_MARKER) ∧
      (⟨List.replicate 8 FREE_MARKER |>.set 5 13, 1⟩ : OpenTable) =
        ⟨openNew.hashTable.set (divLinear openNew.length 13 t) 13,
         (openNew.num_entries + 1) % U32⟩ :=
  open_insert_places_first_free divLinear 0 openNew
    ⟨List.replicate 8 FREE_MARKER |>.set 5 13, 1⟩ 13 (by decide)
    (fun t => Nat.mod_lt _ (by decide)) (by decide) (by decide)

/-- The insert probe loop run with the sentinel `FREE_MARKER` as key can
never report a free slot: a slot equal to `FREE_MARKER` equals the key
and is reported as a hit first. -/
lemma probeLoop_sentinel_no_free (tbl : List ℕ) (ph : ℕ → ℕ → ℕ) :
    ∀ fuel t idx, probeLoop tbl ph FREE_MARKER t fuel ≠ .freeSlot idx := by
  intro fuel
  induction fuel with
  | zero =>
    intro t idx h
    exact ProbeResult.noConfusion h
  | succ f ih =>
    intro t idx h
    simp only [probeLoop] at h
    by_cases h1 : tbl.getD (ph FREE_MARKER t) FREE_MARKER = FREE_MARKER
    · rw [if_pos h1] at h
      exact ProbeResult.noConfusion h
    · rw [if_neg h1, if_neg h1] at h
      exact ih (t + 1) idx h

/-- C7 (amended, open-addressing part): `insert(0xFFFFFFFF)` on an
open-addressing table below the grow threshold never stores the
sentinel — it either diverges (runs out of fuel) or returns the table
unchanged, because the probe loop stops at the first `FREE_MARKER`
slot, which compares equal to the key. -/
theorem open_insert_sentinel_unchanged (ph : ℕ → ℕ → ℕ → ℕ) (fuel : ℕ) (s : OpenTable)
    (hng : 2 * s.num_entries < s.length) :
    OpenTable.insertF ph fuel s FREE_MARKER = none ∨
    OpenTable.insertF ph fuel s FREE_MARKER = some s := by
  cases fuel with
  | zero => exact Or.inl rfl
  | succ f =>
    simp only [OpenTable.insertF]
    rw [if_neg (by omega), Option.some_bind]
    cases hpl : probeLoop s.hashTable (ph s.length) FREE_MARKER 0 s.length with
    | found i => exact Or.inr rfl
    | freeSlot i => exact absurd hpl (probeLoop_sentinel_no_free s.hashTable (ph s.length) s.length 0 i)
    | fuelOut => exact Or.inl rfl

/-- Witness for the amended C7 on the fresh table. -/
theorem open_insert_sentinel_unchanged_witness :
    OpenTable.insertF divLinear 3 openNew FREE_MARKER = none ∨
    OpenTable.insertF divLinear 3 openNew FREE_MARKER = some openNew :=
  open_insert_sentinel_unchanged divLinear 3 openNew (by decide)
